import Mathlib

/-!
Verification development for the scribe static-site generator
(`src/generator.rs`, `src/templates.rs`).

Rust strings are modelled as `String` / `List Char`; the per-character
operations mirror the Rust standard library (`char::to_lowercase`,
`char::is_ascii_alphanumeric`, `str::lines`, `str::trim`, ...) on the
ASCII range where the two libraries agree.  Each embedded definition is
a direct translation of the correspondingly named Rust function.
-/

set_option maxHeartbeats 1000000

/-! ### Character-level facts -/

theorem uint32_le_iff {a b : UInt32} : a ≤ b ↔ a.toNat ≤ b.toNat := by
  simp [UInt32.le_def, BitVec.le_def, UInt32.toNat]

theorem char_eq_iff_toNat {a b : Char} : a = b ↔ a.toNat = b.toNat := by
  constructor
  · intro h; rw [h]
  · intro h
    apply Char.ext
    exact UInt32.ext_iff.mpr h

theorem char_toNat_ofNat (n : Nat) (h : n.isValidChar) : (Char.ofNat n).toNat = n := by
  rw [Char.ofNat, dif_pos h]; rfl

theorem char_isAlphanum_iff (c : Char) : c.isAlphanum = true ↔
    ((65 ≤ c.toNat ∧ c.toNat ≤ 90) ∨ (97 ≤ c.toNat ∧ c.toNat ≤ 122) ∨
      (48 ≤ c.toNat ∧ c.toNat ≤ 57)) := by
  simp [Char.isAlphanum, Char.isAlpha, Char.isUpper, Char.isLower, Char.isDigit,
    uint32_le_iff, Char.toNat, UInt32.size]
  omega

theorem char_toLower_toNat (c : Char) :
    c.toLower.toNat = if c.toNat ≥ 65 ∧ c.toNat ≤ 90 then c.toNat + 32 else c.toNat := by
  rw [Char.toLower]
  split
  · next h => exact char_toNat_ofNat _ (Or.inl (by omega))
  · next h => rfl

theorem char_toLower_eq_self (c : Char) (h : ¬ (65 ≤ c.toNat ∧ c.toNat ≤ 90)) :
    c.toLower = c := by
  rw [Char.toLower, if_neg]
  exact fun hc => h ⟨hc.1, hc.2⟩

/-! ### The slug normalizer `sanitize_slug` (src/generator.rs, lines 685-697) -/

/-- Embeds `char::to_lowercase` as used by `String::to_lowercase`; on the
basic-latin range (all that matters for the slug character set) this is
exactly `Char.toLower`. -/
def rustLower (c : Char) : Char := Char.toLower c

/-- One step of the `sanitize_slug` map: keep ASCII alphanumerics
(`c.is_ascii_alphanumeric()`), replace everything else with a dash. -/
def dashify (c : Char) : Char := if c.isAlphanum then c else '-'

/-- Embeds the regex replacement `-+` → `-` of `sanitize_slug`: every maximal
run of dashes is collapsed to a single dash.  The flag records whether the
previous character belonged to a dash run. -/
def collapseD : Bool → List Char → List Char
  | _, [] => []
  | prev, c :: rest =>
    if c = '-' then
      if prev then collapseD true rest else '-' :: collapseD true rest
    else c :: collapseD false rest

/-- Drops the maximal suffix of characters satisfying `p`; together with
`List.dropWhile` this embeds `str::trim_matches('-')`. -/
def dropLastWhile (p : Char → Bool) : List Char → List Char
  | [] => []
  | c :: rest =>
    match dropLastWhile p rest with
    | [] => if p c then [] else [c]
    | b :: r => c :: b :: r

/-- Embeds `collapsed.trim_matches('-')` from `sanitize_slug`. -/
def trimDash (l : List Char) : List Char :=
  dropLastWhile (fun c => c == '-') (l.dropWhile (fun c => c == '-'))

/-- The cleaned character list of `sanitize_slug` (lowercased, dash-replaced,
collapsed, trimmed) before the `"untitled"` fallback is applied. -/
def slugCore (input : String) : List Char :=
  trimDash (collapseD false ((input.data.map rustLower).map dashify))

/-- Embeds `sanitize_slug` (src/generator.rs): lowercase, replace every
non-ASCII-alphanumeric character with `-`, collapse `-` runs, trim `-` from
both ends, and fall back to `"untitled"` when the result is empty. -/
def sanitize_slug (input : String) : String :=
  if slugCore input = [] then "untitled" else String.mk (slugCore input)

/-- A character `sanitize_slug` may keep: ASCII lowercase letter or digit. -/
def isKeep (c : Char) : Bool :=
  (97 ≤ c.toNat && c.toNat ≤ 122) || (48 ≤ c.toNat && c.toNat ≤ 57)

/-- Adjacency check used to state the no-consecutive-dashes property. -/
def noDD : List Char → Bool
  | [] => true
  | [_] => true
  | a :: b :: rest => !(a == '-' && b == '-') && noDD (b :: rest)

theorem dash_toNat : ('-' : Char).toNat = 45 := rfl

theorem keep_or_dash_of_map (c : Char) :
    isKeep (dashify (rustLower c)) = true ∨ dashify (rustLower c) = '-' := by
  unfold dashify
  by_cases h : (rustLower c).isAlphanum
  · rw [if_pos h]
    left
    rcases (char_isAlphanum_iff _).mp h with h1 | h2 | h3
    · exfalso
      unfold rustLower at h1
      rw [char_toLower_toNat] at h1
      split at h1 <;> omega
    · simp [isKeep, h2.1, h2.2]
    · simp [isKeep, h3.1, h3.2]
  · rw [if_neg h]
    right
    rfl

theorem map_fix_of_keep_or_dash (c : Char) (h : isKeep c = true ∨ c = '-') :
    dashify (rustLower c) = c := by
  have hn : ¬ (65 ≤ c.toNat ∧ c.toNat ≤ 90) := by
    rcases h with h | h
    · simp only [isKeep, Bool.or_eq_true, Bool.and_eq_true, decide_eq_true_eq] at h
      omega
    · rw [h, dash_toNat]; omega
  have hl : rustLower c = c := char_toLower_eq_self c hn
  rw [hl]
  unfold dashify
  rcases h with h | h
  · rw [if_pos]
    rw [char_isAlphanum_iff]
    simp only [isKeep, Bool.or_eq_true, Bool.and_eq_true, decide_eq_true_eq] at h
    omega
  · rw [h]
    rfl

theorem noDD_tail {c : Char} {l : List Char} (h : noDD (c :: l) = true) : noDD l = true := by
  cases l with
  | nil => rfl
  | cons b r =>
    have he : noDD (c :: b :: r) = (!(c == '-' && b == '-') && noDD (b :: r)) := rfl
    rw [he, Bool.and_eq_true] at h
    exact h.2

theorem collapseD_head (l : List Char) : (collapseD true l).head? ≠ some '-' := by
  induction l with
  | nil => simp [collapseD]
  | cons c rest ih =>
    by_cases h : c = '-'
    · simpa [collapseD, h] using ih
    · simp [collapseD, h]

theorem collapseD_noDD (l : List Char) : ∀ prev, noDD (collapseD prev l) = true := by
  induction l with
  | nil => intro _; rfl
  | cons c rest ih =>
    intro prev
    by_cases h : c = '-'
    · subst h
      cases prev
      · show noDD ('-' :: collapseD true rest) = true
        have hh := collapseD_head rest
        have ht := ih true
        cases hcl : collapseD true rest with
        | nil => rfl
        | cons b r =>
          rw [hcl] at hh ht
          have hb : ¬ (b = '-') := by
            intro hb
            rw [hb] at hh
            exact hh rfl
          have he : noDD ('-' :: b :: r) = (!(('-' : Char) == '-' && b == '-') && noDD (b :: r)) := rfl
          rw [he, ht]
          simp [hb]
      · show noDD (collapseD true rest) = true
        exact ih true
    · unfold collapseD
      rw [if_neg h]
      have ht := ih false
      cases hcl : collapseD false rest with
      | nil => rfl
      | cons b r =>
        rw [hcl] at ht
        have he : noDD (c :: b :: r) = (!(c == '-' && b == '-') && noDD (b :: r)) := rfl
        rw [he, ht]
        simp [h]

theorem collapseD_id (l : List Char) :
    ∀ prev, noDD l = true → (prev = true → l.head? ≠ some '-') → collapseD prev l = l := by
  induction l with
  | nil => intro _ _ _; rfl
  | cons c rest ih =>
    intro prev hn hp
    by_cases h : c = '-'
    · subst h
      cases prev
      · have hrh : rest.head? ≠ some '-' := by
          cases rest with
          | nil => simp
          | cons b r =>
            intro hb
            simp only [List.head?_cons, Option.some.injEq] at hb
            subst hb
            have he : noDD ('-' :: '-' :: r) = (!(('-' : Char) == '-' && ('-' : Char) == '-') && noDD ('-' :: r)) := rfl
            rw [he] at hn
            simp at hn
        have hr := ih true (noDD_tail hn) (fun _ => hrh)
        simp [collapseD, hr]
      · exact absurd rfl (hp rfl)
    · have hr := ih false (noDD_tail hn) (by intro hf; cases hf)
      simp [collapseD, h, hr]

theorem mem_collapseD {c : Char} {l : List Char} : ∀ prev, c ∈ collapseD prev l → c ∈ l := by
  induction l with
  | nil => intro prev h; simp [collapseD] at h
  | cons a rest ih =>
    intro prev h
    by_cases ha : a = '-'
    · subst ha
      cases prev
      · simp only [collapseD, if_pos rfl, if_neg Bool.false_ne_true] at h
        rcases List.mem_cons.mp h with h | h
        · exact h ▸ List.mem_cons_self _ _
        · exact List.mem_cons_of_mem _ (ih true h)
      · simp only [collapseD, if_pos rfl, if_pos rfl] at h
        exact List.mem_cons_of_mem _ (ih true h)
    · simp only [collapseD, if_neg ha] at h
      rcases List.mem_cons.mp h with h | h
      · exact h ▸ List.mem_cons_self _ _
      · exact List.mem_cons_of_mem _ (ih false h)

theorem dropLastWhile_head {p : Char → Bool} {l : List Char} {c : Char}
    (h : (dropLastWhile p l).head? = some c) : l.head? = some c := by
  cases l with
  | nil => simp [dropLastWhile] at h
  | cons a rest =>
    simp only [dropLastWhile] at h
    split at h
    · split at h
      · simp at h
      · simp only [List.head?_cons, Option.some.injEq] at h ⊢
        exact h
    · simp only [List.head?_cons, Option.some.injEq] at h ⊢
      exact h

theorem dropLastWhile_getLast {p : Char → Bool} {l : List Char} :
    ∀ c, (dropLastWhile p l).getLast? = some c → p c = false := by
  induction l with
  | nil => intro c h; simp [dropLastWhile] at h
  | cons a rest ih =>
    intro c h
    simp only [dropLastWhile] at h
    split at h
    · split at h
      · simp at h
      · next hpa =>
        simp only [List.getLast?_singleton, Option.some.injEq] at h
        subst h
        exact Bool.eq_false_iff.mpr hpa
    · next heq =>
      rw [List.getLast?_cons_cons] at h
      exact ih c (by rw [heq]; exact h)

theorem mem_dropLastWhile {p : Char → Bool} {l : List Char} {c : Char}
    (h : c ∈ dropLastWhile p l) : c ∈ l := by
  induction l with
  | nil => simp [dropLastWhile] at h
  | cons a rest ih =>
    simp only [dropLastWhile] at h
    split at h
    · split at h
      · simp at h
      · simp only [List.mem_singleton] at h
        exact h ▸ List.mem_cons_self _ _
    · next heq =>
      rcases List.mem_cons.mp h with h | h
      · exact h ▸ List.mem_cons_self _ _
      · exact List.mem_cons_of_mem _ (ih (by rw [heq]; exact h))

theorem noDD_dropLastWhile {p : Char → Bool} {l : List Char} (hn : noDD l = true) :
    noDD (dropLastWhile p l) = true := by
  induction l with
  | nil => rfl
  | cons a rest ih =>
    simp only [dropLastWhile]
    split
    · split
      · rfl
      · rfl
    · next b r' heq =>
      have hbr : noDD (b :: r') = true := by rw [← heq]; exact ih (noDD_tail hn)
      have hb : rest.head? = some b := dropLastWhile_head (by rw [heq]; rfl)
      cases rest with
      | nil => simp at hb
      | cons x rest' =>
        simp only [List.head?_cons, Option.some.injEq] at hb
        subst hb
        have hadj : (!(a == '-' && x == '-')) = true := by
          have he : noDD (a :: x :: rest') = (!(a == '-' && x == '-') && noDD (x :: rest')) := rfl
          rw [he, Bool.and_eq_true] at hn
          exact hn.1
        have he2 : noDD (a :: x :: r') = (!(a == '-' && x == '-') && noDD (x :: r')) := rfl
        rw [he2, Bool.and_eq_true]
        exact ⟨hadj, hbr⟩

theorem dropLastWhile_id {p : Char → Bool} {l : List Char}
    (h : ∀ c, l.getLast? = some c → p c = false) : dropLastWhile p l = l := by
  induction l with
  | nil => rfl
  | cons a rest ih =>
    cases rest with
    | nil =>
      have hpa : p a = false := h a (by simp)
      simp [dropLastWhile, hpa]
    | cons b rest' =>
      have hrec : dropLastWhile p (b :: rest') = b :: rest' :=
        ih (fun c hc => h c (by rw [List.getLast?_cons_cons]; exact hc))
      have hstep : dropLastWhile p (a :: b :: rest') =
          match dropLastWhile p (b :: rest') with
          | [] => if p a then [] else [a]
          | x :: r => a :: x :: r := rfl
      rw [hstep, hrec]

theorem head_dropWhile_false {p : Char → Bool} {l : List Char} {c : Char}
    (h : (l.dropWhile p).head? = some c) : p c = false := by
  have hh := List.head?_dropWhile_not p l
  rw [h] at hh
  simpa using hh

theorem noDD_dropWhile {p : Char → Bool} {l : List Char} (hn : noDD l = true) :
    noDD (l.dropWhile p) = true := by
  induction l with
  | nil => rfl
  | cons a rest ih =>
    by_cases hp : p a = true
    · rw [List.dropWhile_cons_of_pos hp]
      exact ih (noDD_tail hn)
    · rw [List.dropWhile_cons_of_neg hp]
      exact hn

theorem dropWhile_id {p : Char → Bool} {l : List Char}
    (h : ∀ c, l.head? = some c → p c = false) : l.dropWhile p = l := by
  cases l with
  | nil => rfl
  | cons a rest =>
    rw [List.dropWhile_cons_of_neg]
    rw [h a rfl]
    exact Bool.false_ne_true

theorem slugCore_mem {x : String} {c : Char} (h : c ∈ slugCore x) :
    isKeep c = true ∨ c = '-' := by
  unfold slugCore trimDash at h
  have h1 := mem_dropLastWhile h
  have h2 := (List.dropWhile_sublist _).mem h1
  have h3 := mem_collapseD false h2
  rcases List.mem_map.mp h3 with ⟨b, hb, hbe⟩
  rcases List.mem_map.mp hb with ⟨a, _, hae⟩
  rw [← hbe, ← hae]
  exact keep_or_dash_of_map a

theorem slugCore_noDD (x : String) : noDD (slugCore x) = true :=
  noDD_dropLastWhile (noDD_dropWhile (collapseD_noDD _ false))

theorem slugCore_head {x : String} {c : Char} (h : (slugCore x).head? = some c) : c ≠ '-' := by
  have h1 := dropLastWhile_head h
  have h2 := head_dropWhile_false h1
  simpa using h2

theorem slugCore_last {x : String} {c : Char} (h : (slugCore x).getLast? = some c) : c ≠ '-' := by
  have h2 := dropLastWhile_getLast c h
  simpa using h2

theorem map_fix_list {l : List Char} (h : ∀ c ∈ l, isKeep c = true ∨ c = '-') :
    (l.map rustLower).map dashify = l := by
  induction l with
  | nil => rfl
  | cons a rest ih =>
    simp only [List.map_cons]
    rw [map_fix_of_keep_or_dash a (h a (List.mem_cons_self _ _)),
      ih (fun c hc => h c (List.mem_cons_of_mem _ hc))]

theorem slugCore_fix {l : List Char}
    (hmem : ∀ c ∈ l, isKeep c = true ∨ c = '-')
    (hn : noDD l = true)
    (hh : ∀ c, l.head? = some c → c ≠ '-')
    (hl : ∀ c, l.getLast? = some c → c ≠ '-') :
    slugCore (String.mk l) = l := by
  unfold slugCore trimDash
  have hd : (String.mk l).data = l := rfl
  rw [hd, map_fix_list hmem, collapseD_id l false hn (fun hf => nomatch hf),
    dropWhile_id (fun c hc => by simpa using hh c hc)]
  exact dropLastWhile_id (fun c hc => by simpa using hl c hc)

/-- Claim C5 counterexample: the claim requires the result to equal
`"untitled"` exactly (iff) when the cleaned slug is otherwise empty; the
input `"untitled"` itself yields `sanitize_slug "untitled" = "untitled"`
with a non-empty cleaned result, so the biconditional fails. -/
theorem sanitize_untitled_cex :
    ¬ ((sanitize_slug "untitled" = "untitled") ↔ slugCore "untitled" = []) := by
  decide

/-- Claim C5 (amended): for every input `x`, `sanitize_slug` is idempotent,
never empty, consists only of lowercase ASCII alphanumerics and hyphens with
no leading, trailing or consecutive hyphen, equals `"untitled"` whenever the
cleaned result is empty, and otherwise equals the cleaned result (which may
itself be the string `"untitled"`). -/
theorem sanitize_slug_spec (x : String) :
    sanitize_slug (sanitize_slug x) = sanitize_slug x ∧
    sanitize_slug x ≠ "" ∧
    (∀ c ∈ (sanitize_slug x).data, isKeep c = true ∨ c = '-') ∧
    noDD (sanitize_slug x).data = true ∧
    (∀ c, (sanitize_slug x).data.head? = some c → c ≠ '-') ∧
    (∀ c, (sanitize_slug x).data.getLast? = some c → c ≠ '-') ∧
    (slugCore x = [] → sanitize_slug x = "untitled") ∧
    (slugCore x ≠ [] → (sanitize_slug x).data = slugCore x) := by
  by_cases hc : slugCore x = []
  · have hx : sanitize_slug x = "untitled" := by
      unfold sanitize_slug
      rw [if_pos hc]
    rw [hx]
    exact ⟨by decide, by decide, by decide, by decide, by decide, by decide,
      fun _ => rfl, fun hne => absurd hc hne⟩
  · have hx : sanitize_slug x = String.mk (slugCore x) := by
      unfold sanitize_slug
      rw [if_neg hc]
    have hdata : (sanitize_slug x).data = slugCore x := by rw [hx]
    have hfix : slugCore (String.mk (slugCore x)) = slugCore x :=
      slugCore_fix (fun c h => slugCore_mem h) (slugCore_noDD x)
        (fun c h => slugCore_head h) (fun c h => slugCore_last h)
    refine ⟨?_, ?_, ?_, ?_, ?_, ?_, fun habs => absurd habs hc, fun _ => hdata⟩
    · rw [hx]
      unfold sanitize_slug
      rw [hfix, if_neg hc]
    · intro he
      apply hc
      have : (sanitize_slug x).data = [] := by rw [he]
      rw [hdata] at this
      exact this
    · intro c hmem
      rw [hdata] at hmem
      exact slugCore_mem hmem
    · rw [hdata]
      exact slugCore_noDD x
    · intro c hhead
      rw [hdata] at hhead
      exact slugCore_head hhead
    · intro c hlast
      rw [hdata] at hlast
      exact slugCore_last hlast

/-- Claim C5 witness: the amended specification evaluated at concrete inputs
(`"!!"` cleans to empty and falls back; `"My Post"` keeps its cleaned form). -/
theorem sanitize_slug_spec_witness :
    sanitize_slug "!!" = "untitled" ∧ (sanitize_slug "My Post").data = slugCore "My Post" :=
  ⟨(sanitize_slug_spec "!!").2.2.2.2.2.2.1 (by decide),
    (sanitize_slug_spec "My Post").2.2.2.2.2.2.2 (by decide)⟩

/-! ### Per-document output paths (generate_posts, src/generator.rs lines 429-469) -/

/-- The file a document render task writes:
`<output_dir>/<slug>/index.html` (from `generate_posts`). -/
def postIndexPath (outputDir slug : String) : String :=
  outputDir ++ "/" ++ slug ++ "/index.html"

/-- Claim C3 counterexample: two distinct documents (original slugs
`"a_post"` and `"a-post"`) receive the same canonical slug, so distinct
documents do not always have distinct canonical slugs, and both their render
tasks write the very same `output/a-post/index.html` file. -/
theorem distinct_slug_cex :
    sanitize_slug "a_post" = sanitize_slug "a-post" ∧ "a_post" ≠ "a-post" ∧
    postIndexPath "output" (sanitize_slug "a_post") =
      postIndexPath "output" (sanitize_slug "a-post") := by
  refine ⟨by decide, by decide, ?_⟩
  have h : sanitize_slug "a_post" = sanitize_slug "a-post" := by decide
  rw [h]

/-- Claim C3 (amended): render tasks write to pairwise disjoint files
whenever their canonical slugs differ — `postIndexPath` is injective in the
slug — but `sanitize_slug` is not injective, so two distinct documents can
share a canonical slug (and then write the same file). -/
theorem post_paths_disjoint :
    (∀ out s1 s2 : String, s1 ≠ s2 → postIndexPath out s1 ≠ postIndexPath out s2) ∧
    sanitize_slug "a_post" = sanitize_slug "a-post" ∧ "a_post" ≠ "a-post" := by
  refine ⟨?_, by decide, by decide⟩
  intro out s1 s2 h he
  apply h
  have hd := congrArg String.data he
  unfold postIndexPath at hd
  simp only [String.data_append] at hd
  have h1 := List.append_cancel_right hd
  have h2 := List.append_cancel_left h1
  cases s1
  cases s2
  exact congrArg String.mk h2

/-- Claim C3 witness: disjointness of the paths evaluated for two concrete
distinct slugs. -/
theorem post_paths_disjoint_witness :
    postIndexPath "output" "alpha" ≠ postIndexPath "output" "beta" :=
  post_paths_disjoint.1 "output" "alpha" "beta" (by decide)

/-! ### URL canonicalization (canonicalize_url, src/generator.rs lines 653-683) -/

/-- Embeds `str::trim` (whitespace stripped from both ends). -/
def rustTrim (l : List Char) : List Char :=
  ((l.dropWhile Char.isWhitespace).reverse.dropWhile Char.isWhitespace).reverse

/-- Truncate the string at the first occurrence of `c`; embeds the
`find`/`truncate` pairs of `canonicalize_url`. -/
def truncAt (c : Char) (l : List Char) : List Char :=
  l.takeWhile (fun a => a != c)

/-- Split at the first occurrence of `"://"`; embeds `s.find("://")` together
with the `split_at`/`[3..]` step of `canonicalize_url`. -/
def splitScheme : List Char → Option (List Char × List Char)
  | [] => none
  | c :: rest =>
    if c = ':' ∧ rest.take 2 = ['/', '/'] then some ([], rest.drop 2)
    else
      match splitScheme rest with
      | some (sch, after) => some (c :: sch, after)
      | none => none

/-- The duplicate-slash-removal loop of `canonicalize_url`: collapse every
run of `/` to a single `/`; the flag is the loop's `prev_slash` state. -/
def collapseSl : Bool → List Char → List Char
  | _, [] => []
  | prev, c :: rest =>
    if c = '/' then
      if prev then collapseSl true rest else '/' :: collapseSl true rest
    else c :: collapseSl false rest

/-- Embeds `canonicalize_url` (src/generator.rs): trim, truncate at the first
`#` then at the first `?`, split at `"://"`, lowercase scheme and host,
rebuild (`splitn(2,'/')` on the remainder; the path is re-attached only when
non-empty), then collapse duplicate slashes over the whole rebuilt string. -/
def canonCore : Option (List Char × List Char) → List Char → List Char
  | none, s => s
  | some (scheme, rest), _ =>
    let host := rest.takeWhile (fun a => a != '/')
    let afterHost := rest.dropWhile (fun a => a != '/')
    let path := afterHost.drop 1
    collapseSl false
      (scheme.map rustLower ++ ':' :: '/' :: '/' :: (host.map rustLower ++
        (if path.isEmpty then [] else '/' :: path)))

def canonList (url : List Char) : List Char :=
  canonCore (splitScheme (truncAt '?' (truncAt '#' (rustTrim url))))
    (truncAt '?' (truncAt '#' (rustTrim url)))

/-- Embeds `canonicalize_url` on `String`. -/
def canonicalize_url (url : String) : String :=
  String.mk (canonList url.data)

/-- Claim C4 counterexample: the duplicate-slash collapse runs over the whole
rebuilt string, so the `"://"` separator is collapsed to `":/"` rather than
left intact, and a bare root path loses its trailing slash. -/
theorem canonicalize_url_sep_cex :
    canonicalize_url "http://example.com/a" = "http:/example.com/a" ∧
    canonicalize_url "http://example.com/" = "http:/example.com" := by
  refine ⟨?_, ?_⟩ <;> decide

theorem head?_mem {l : List Char} {c : Char} (h : l.head? = some c) : c ∈ l := by
  cases l with
  | nil => simp at h
  | cons a t =>
    simp only [List.head?_cons, Option.some.injEq] at h
    subst h
    exact List.mem_cons_self _ _

theorem rustTrim_eq_self {l : List Char} (h : ∀ c ∈ l, c.isWhitespace = false) :
    rustTrim l = l := by
  unfold rustTrim
  rw [dropWhile_id (fun c hc => h c (head?_mem hc))]
  rw [dropWhile_id (fun c hc => h c (List.mem_reverse.mp (head?_mem hc)))]
  exact List.reverse_reverse l

theorem truncAt_append {c : Char} {a : List Char} (b : List Char) (ha : ∀ x ∈ a, x ≠ c) :
    truncAt c (a ++ b) = a ++ truncAt c b :=
  List.takeWhile_append_of_pos (fun x hx => by simpa using ha x hx)

theorem truncAt_eq_self {c : Char} {a : List Char} (ha : ∀ x ∈ a, x ≠ c) : truncAt c a = a :=
  List.takeWhile_eq_self_iff.mpr (fun x hx => by simpa using ha x hx)

theorem truncAt_cons (c : Char) (b : List Char) : truncAt c (c :: b) = [] := by
  simp [truncAt]

theorem trunc_of_tail (base tail : List Char)
    (hbase : ∀ x ∈ base, x ≠ '#' ∧ x ≠ '?')
    (ht : tail = [] ∨ tail.head? = some '?' ∨ tail.head? = some '#') :
    truncAt '?' (truncAt '#' (base ++ tail)) = base := by
  rcases ht with rfl | h | h
  · rw [List.append_nil, truncAt_eq_self (fun x hx => (hbase x hx).1),
      truncAt_eq_self (fun x hx => (hbase x hx).2)]
  · cases tail with
    | nil => simp at h
    | cons d t =>
      simp only [List.head?_cons, Option.some.injEq] at h
      subst h
      rw [truncAt_append _ (fun x hx => (hbase x hx).1)]
      have h1 : truncAt '#' ('?' :: t) = '?' :: truncAt '#' t := by
        simp [truncAt, List.takeWhile_cons]
      rw [h1, truncAt_append _ (fun x hx => (hbase x hx).2), truncAt_cons, List.append_nil]
  · cases tail with
    | nil => simp at h
    | cons d t =>
      simp only [List.head?_cons, Option.some.injEq] at h
      subst h
      rw [truncAt_append _ (fun x hx => (hbase x hx).1), truncAt_cons, List.append_nil]
      rw [truncAt_eq_self (fun x hx => (hbase x hx).2)]

theorem splitScheme_append {scheme : List Char} (rest : List Char)
    (h : ∀ c ∈ scheme, c ≠ ':') :
    splitScheme (scheme ++ ':' :: '/' :: '/' :: rest) = some (scheme, rest) := by
  induction scheme with
  | nil => rfl
  | cons c sch ih =>
    have hc : c ≠ ':' := h c (List.mem_cons_self _ _)
    simp only [List.cons_append, splitScheme]
    rw [if_neg (fun hcc => hc hcc.1)]
    simp only [List.append_eq]
    rw [ih (fun x hx => h x (List.mem_cons_of_mem _ hx))]

theorem collapseSl_append {a : List Char} (b : List Char) (ha : ∀ c ∈ a, c ≠ '/') :
    ∀ prev, collapseSl prev (a ++ b) = a ++ collapseSl (if a.isEmpty then prev else false) b := by
  induction a with
  | nil => intro prev; simp
  | cons c a' ih =>
    intro prev
    have hc : c ≠ '/' := ha c (List.mem_cons_self _ _)
    simp only [List.cons_append, collapseSl]
    rw [if_neg hc]
    simp only [List.append_eq]
    rw [ih (fun x hx => ha x (List.mem_cons_of_mem _ hx)) false]
    simp [List.isEmpty_cons, ite_self]

theorem collapseSl_sep (X : List Char) :
    collapseSl false (':' :: '/' :: '/' :: X) = ':' :: '/' :: collapseSl true X := rfl

theorem rustLower_ne_slash {c : Char} (h : c ≠ '/') : rustLower c ≠ '/' := by
  intro he
  rw [char_eq_iff_toNat] at he
  unfold rustLower at he
  rw [char_toLower_toNat] at he
  have h47 : ('/' : Char).toNat = 47 := rfl
  rw [h47] at he
  split at he
  · omega
  · apply h
    rw [char_eq_iff_toNat, h47]
    exact he

/-- Claim C4 (amended): for every whitespace-free URL decomposable as
`scheme://host path tail` (host non-empty and slash-free, path absent or
slash-initial, tail absent or a query/fragment suffix), `canonicalize_url`
lowercases the scheme and host, drops the fragment and query, preserves the
path's character case, and collapses repeated slashes over the whole rebuilt
string — so the `"://"` separator becomes `":/"`, and a bare root slash after
the host is dropped (`if path = ['/']` below); a longer path keeps its
trailing-slash presence (`collapseSl` never removes a lone final slash).  In
particular the two URLs of the claim still canonicalize to the same key. -/
theorem canonicalize_url_spec :
    (∀ scheme host path tail : List Char,
      (∀ c ∈ scheme, c.isWhitespace = false ∧ c ≠ ':' ∧ c ≠ '/' ∧ c ≠ '#' ∧ c ≠ '?') →
      (∀ c ∈ host, c.isWhitespace = false ∧ c ≠ '/' ∧ c ≠ '#' ∧ c ≠ '?') →
      host ≠ [] →
      (∀ c ∈ path, c.isWhitespace = false ∧ c ≠ '#' ∧ c ≠ '?') →
      (path = [] ∨ path.head? = some '/') →
      (tail = [] ∨ ((tail.head? = some '?' ∨ tail.head? = some '#') ∧
        ∀ c ∈ tail, c.isWhitespace = false)) →
      canonList (scheme ++ ':' :: '/' :: '/' :: (host ++ path ++ tail)) =
        scheme.map rustLower ++ ':' :: '/' ::
          (host.map rustLower ++ collapseSl false (if path = ['/'] then [] else path))) ∧
    canonicalize_url "http://Example.com/Path/?x=1#y" =
      canonicalize_url "http://example.com/Path/" := by
  constructor
  · intro scheme host path tail hs hh hne hp hps ht
    have hwsall : ∀ c ∈ scheme ++ ':' :: '/' :: '/' :: (host ++ path ++ tail),
        c.isWhitespace = false := by
      intro c hc
      rcases List.mem_append.mp hc with hc | hc
      · exact (hs c hc).1
      · rcases List.mem_cons.mp hc with rfl | hc
        · rfl
        rcases List.mem_cons.mp hc with rfl | hc
        · rfl
        rcases List.mem_cons.mp hc with rfl | hc
        · rfl
        rcases List.mem_append.mp hc with hc | hc
        · rcases List.mem_append.mp hc with hc | hc
          · exact (hh c hc).1
          · exact (hp c hc).1
        · rcases ht with rfl | ⟨_, hws⟩
          · simp at hc
          · exact hws c hc
    have hbase_hq : ∀ x ∈ scheme ++ ':' :: '/' :: '/' :: (host ++ path),
        x ≠ '#' ∧ x ≠ '?' := by
      intro x hx
      rcases List.mem_append.mp hx with hx | hx
      · exact ⟨(hs x hx).2.2.2.1, (hs x hx).2.2.2.2⟩
      · rcases List.mem_cons.mp hx with rfl | hx
        · exact ⟨by decide, by decide⟩
        rcases List.mem_cons.mp hx with rfl | hx
        · exact ⟨by decide, by decide⟩
        rcases List.mem_cons.mp hx with rfl | hx
        · exact ⟨by decide, by decide⟩
        rcases List.mem_append.mp hx with hx | hx
        · exact ⟨(hh x hx).2.2.1, (hh x hx).2.2.2⟩
        · exact ⟨(hp x hx).2.1, (hp x hx).2.2⟩
    have hassoc : scheme ++ ':' :: '/' :: '/' :: (host ++ path ++ tail) =
        (scheme ++ ':' :: '/' :: '/' :: (host ++ path)) ++ tail := by
      simp [List.append_assoc]
    have htrim := rustTrim_eq_self hwsall
    have htrunc : truncAt '?' (truncAt '#'
        ((scheme ++ ':' :: '/' :: '/' :: (host ++ path)) ++ tail)) =
        scheme ++ ':' :: '/' :: '/' :: (host ++ path) := by
      refine trunc_of_tail _ _ hbase_hq ?_
      rcases ht with rfl | ⟨hh2, _⟩
      · left; rfl
      · right; exact hh2
    have hsplit : splitScheme (scheme ++ ':' :: '/' :: '/' :: (host ++ path)) =
        some (scheme, host ++ path) :=
      splitScheme_append _ (fun c hc => (hs c hc).2.1)
    have hmapns : ∀ c ∈ scheme.map rustLower, c ≠ '/' := by
      intro c hc
      rcases List.mem_map.mp hc with ⟨a, ha, rfl⟩
      exact rustLower_ne_slash (hs a ha).2.2.1
    have hmaph : ∀ c ∈ host.map rustLower, c ≠ '/' := by
      intro c hc
      rcases List.mem_map.mp hc with ⟨a, ha, rfl⟩
      exact rustLower_ne_slash (hh a ha).2.1
    have hie : (host.map rustLower).isEmpty = false := by
      cases host with
      | nil => exact absurd rfl hne
      | cons a t => rfl
    have hcollapse : ∀ tp : List Char,
        collapseSl false (scheme.map rustLower ++ ':' :: '/' :: '/' ::
          (host.map rustLower ++ tp)) =
        scheme.map rustLower ++ ':' :: '/' ::
          (host.map rustLower ++ collapseSl false tp) := by
      intro tp
      rw [collapseSl_append _ hmapns false, ite_self, collapseSl_sep,
        collapseSl_append _ hmaph true, hie]
      simp
    unfold canonList
    rw [htrim, hassoc, htrunc, hsplit]
    simp only [canonCore]
    rcases hps with rfl | hhead
    · have htake : (host ++ ([] : List Char)).takeWhile (fun a => a != '/') = host := by
        rw [List.append_nil]
        exact List.takeWhile_eq_self_iff.mpr (fun x hx => by simpa using (hh x hx).2.1)
      have hdrop : (host ++ ([] : List Char)).dropWhile (fun a => a != '/') = [] := by
        rw [List.append_nil]
        exact List.dropWhile_eq_nil_iff.mpr (fun x hx => by simpa using (hh x hx).2.1)
      rw [htake, hdrop]
      have hif : (if (List.drop 1 ([] : List Char)).isEmpty = true then ([] : List Char)
          else '/' :: List.drop 1 ([] : List Char)) = [] := rfl
      rw [hif, hcollapse []]
      rfl
    · cases path with
      | nil => simp at hhead
      | cons c0 p =>
        simp only [List.head?_cons, Option.some.injEq] at hhead
        subst hhead
        have hposh : ∀ x ∈ host, (fun a => a != '/') x = true :=
          fun x hx => by simpa using (hh x hx).2.1
        have htake : (host ++ '/' :: p).takeWhile (fun a => a != '/') = host := by
          rw [List.takeWhile_append_of_pos hposh]
          simp [List.takeWhile_cons]
        have hdrop : (host ++ '/' :: p).dropWhile (fun a => a != '/') = '/' :: p := by
          rw [List.dropWhile_append_of_pos hposh]
          rw [List.dropWhile_cons_of_neg (by simp)]
        rw [htake, hdrop]
        cases p with
        | nil =>
          have hif : (if (List.drop 1 ['/']).isEmpty = true then ([] : List Char)
              else '/' :: List.drop 1 ['/']) = [] := rfl
          rw [hif, hcollapse []]
          rfl
        | cons c1 p' =>
          have hif : (if (List.drop 1 ('/' :: c1 :: p')).isEmpty = true then ([] : List Char)
              else '/' :: List.drop 1 ('/' :: c1 :: p')) = '/' :: c1 :: p' := rfl
          rw [hif, hcollapse ('/' :: c1 :: p')]
          have hne2 : ('/' :: c1 :: p') ≠ ['/'] := by simp
          rw [if_neg hne2]
  · decide

/-- Claim C4 witness: the amended characterization evaluated at the concrete
decomposition `http` `://` `a.com` `/x` `?q`. -/
theorem canonicalize_url_spec_witness :
    canonList ("http".data ++ ':' :: '/' :: '/' :: ("a.com".data ++ "/x".data ++ "?q".data)) =
      "http".data.map rustLower ++ ':' :: '/' ::
        ("a.com".data.map rustLower ++
          collapseSl false (if "/x".data = ['/'] then [] else "/x".data)) :=
  canonicalize_url_spec.1 "http".data "a.com".data "/x".data "?q".data
    (by decide) (by decide) (by decide) (by decide) (by decide) (by decide)

/-! ### Annotation metadata fetch-and-merge
(build_annotation_meta_json / fetch_url_metadata, src/generator.rs lines 490-630) -/

/-- The JSON value stored for one fetched URL: `Value::Null` when the whole
request errored or timed out (`unwrap_or_default` on the `Result`), otherwise
an object holding the optionally extracted title and description — empty for
a non-success HTTP status (`Ok(json!({}))`). -/
inductive MetaVal
  | null
  | obj (title : Option String) (desc : Option String)
deriving DecidableEq

/-- Abstract outcome of the single HTTP GET performed by
`fetch_url_metadata` for one URL. -/
inductive FetchResult
  | fetchErr
  | httpFail
  | ok (title : Option String) (desc : Option String)
deriving DecidableEq

/-- What `build_annotation_meta_json` stores for one URL given its fetch
outcome (`fetch_url_metadata(&client, &url).await.unwrap_or_default()`). -/
def metaOf : FetchResult → MetaVal
  | .fetchErr => .null
  | .httpFail => .obj none none
  | .ok t d => .obj t d

/-- The opposite trailing-slash key registered next to the canonical key:
`trim_end_matches('/')` when the key ends in a slash, else append one. -/
def slashVariant (k : String) : String :=
  if k.data.getLast? = some '/' then
    String.mk (dropLastWhile (fun c => c == '/') k.data)
  else k ++ "/"

/-- The three lookup keys registered for one URL by
`build_annotation_meta_json`: canonical form, its opposite trailing-slash
variant, and the raw authored URL. -/
def keysOf (u : String) : List String :=
  [canonicalize_url u, slashVariant (canonicalize_url u), u]

/-- One `HashMap::insert` with overwrite semantics, the map modelled as a
function. -/
def mInsert (m : String → Option MetaVal) (k : String) (v : MetaVal) :
    String → Option MetaVal :=
  fun q => if q = k then some v else m q

/-- The three inserts performed for one URL, in source order: canonical key,
slash variant, raw URL. -/
def insertUrl (m : String → Option MetaVal) (u : String) (v : MetaVal) :
    String → Option MetaVal :=
  mInsert (mInsert (mInsert m (canonicalize_url u) v)
    (slashVariant (canonicalize_url u)) v) u v

/-- The fetch-and-merge loop of `build_annotation_meta_json`: the first 32
distinct URLs are fetched (outcome abstracted by `f`) and every result —
including failures — is merged into one map under all registered key
variants.  The function is total: no fetch outcome makes the step fail. -/
def fetchAndMerge (us : List String) (f : String → FetchResult) :
    String → Option MetaVal :=
  (us.take 32).foldl (fun m u => insertUrl m u (metaOf (f u))) (fun _ => none)

theorem insertUrl_frame {m : String → Option MetaVal} {u : String} {v : MetaVal}
    {k : String} (hk : k ∉ keysOf u) : insertUrl m u v k = m k := by
  simp only [keysOf, List.mem_cons, List.not_mem_nil, or_false, not_or] at hk
  unfold insertUrl mInsert
  rw [if_neg hk.2.2, if_neg hk.2.1, if_neg hk.1]

theorem insertUrl_hit {m : String → Option MetaVal} {u : String} {v : MetaVal}
    {k : String} (hk : k ∈ keysOf u) : insertUrl m u v k = some v := by
  unfold insertUrl mInsert
  by_cases h3 : k = u
  · rw [if_pos h3]
  · rw [if_neg h3]
    by_cases h2 : k = slashVariant (canonicalize_url u)
    · rw [if_pos h2]
    · rw [if_neg h2]
      simp only [keysOf, List.mem_cons, List.not_mem_nil, or_false] at hk
      rcases hk with h1 | h1 | h1
      · rw [if_pos h1]
      · exact absurd h1 h2
      · exact absurd h1 h3

theorem fold_frame (f : String → FetchResult) {l : List String} {k : String}
    (h : ∀ w ∈ l, k ∉ keysOf w) :
    ∀ m, l.foldl (fun m u => insertUrl m u (metaOf (f u))) m k = m k := by
  induction l with
  | nil => intro m; rfl
  | cons w l' ih =>
    intro m
    rw [List.foldl_cons]
    rw [ih (fun x hx => h x (List.mem_cons_of_mem _ hx))]
    exact insertUrl_frame (h w (List.mem_cons_self _ _))

theorem fold_hit (f : String → FetchResult) {l : List String} {u k : String}
    (hu : u ∈ l) (hk : k ∈ keysOf u)
    (hdisj : ∀ w ∈ l, w ≠ u → k ∉ keysOf w) :
    ∀ m, l.foldl (fun m u => insertUrl m u (metaOf (f u))) m k = some (metaOf (f u)) := by
  induction l with
  | nil => cases hu
  | cons w l' ih =>
    intro m
    rw [List.foldl_cons]
    by_cases hul : u ∈ l'
    · exact ih hul (fun x hx hxu => hdisj x (List.mem_cons_of_mem _ hx) hxu) _
    · have hwu : w = u := by
        rcases List.mem_cons.mp hu with h | h
        · exact h.symm
        · exact absurd h hul
      subst hwu
      rw [fold_frame f (fun x hx => hdisj x (List.mem_cons_of_mem _ hx)
        (fun hxw => hul (hxw ▸ hx)))]
      exact insertUrl_hit hk

theorem fold_congr {f g : String → FetchResult} {u : String}
    (hg : ∀ w, w ≠ u → g w = f w) :
    ∀ (l : List String) (m1 m2 : String → Option MetaVal),
      (∀ k, k ∉ keysOf u → m1 k = m2 k) →
      ∀ k, k ∉ keysOf u →
        l.foldl (fun m w => insertUrl m w (metaOf (f w))) m1 k =
        l.foldl (fun m w => insertUrl m w (metaOf (g w))) m2 k := by
  intro l
  induction l with
  | nil => intro m1 m2 hm k hk; exact hm k hk
  | cons w l' ih =>
    intro m1 m2 hm k hk
    rw [List.foldl_cons, List.foldl_cons]
    refine ih _ _ ?_ k hk
    intro q hq
    by_cases hqw : q ∈ keysOf w
    · by_cases hwu : w = u
      · exact absurd (hwu ▸ hqw) hq
      · rw [insertUrl_hit hqw, insertUrl_hit hqw, hg w hwu]
    · rw [insertUrl_frame hqw, insertUrl_frame hqw]
      exact hm q hq

/-- Claim C6: a URL whose HTTP request errors, times out
(`FetchResult.fetchErr`) or returns a non-success status
(`FetchResult.httpFail`) contributes an empty metadata entry (`null` or the
empty object) under each of its registered keys; and that failure does not
remove or alter the entries at any key outside the failing URL's own key
set — in particular the entries of the document's other (canonically
distinct) URLs are identical to what they would be under any outcome `g`
for the failing URL.  `fetchAndMerge` is total, so the annotation step
itself never fails. -/
theorem annotation_fetch_isolated (us : List String) (f g : String → FetchResult)
    (u : String)
    (hu : u ∈ us.take 32)
    (hfail : f u = FetchResult.fetchErr ∨ f u = FetchResult.httpFail)
    (hdisj : ∀ w ∈ us.take 32, w ≠ u → ∀ k ∈ keysOf u, k ∉ keysOf w)
    (hg : ∀ w, w ≠ u → g w = f w) :
    (∀ k ∈ keysOf u, ∃ v, fetchAndMerge us f k = some v ∧
      (v = MetaVal.null ∨ v = MetaVal.obj none none)) ∧
    (∀ k, k ∉ keysOf u → fetchAndMerge us f k = fetchAndMerge us g k) := by
  constructor
  · intro k hk
    refine ⟨metaOf (f u), ?_, ?_⟩
    · unfold fetchAndMerge
      exact fold_hit f hu hk (fun w hw hwu => hdisj w hw hwu k hk) _
    · rcases hfail with h | h <;> rw [h] <;> simp [metaOf]
  · intro k hk
    unfold fetchAndMerge
    exact fold_congr hg _ _ _ (fun _ _ => rfl) k hk

/-- Concrete URL list for the C6 witness. -/
def demoUrls : List String := ["http://a.com/x", "http://b.com/y"]

/-- Concrete outcome function: the first URL's fetch times out, the second
succeeds. -/
def demoF : String → FetchResult :=
  fun w => if w = "http://a.com/x" then FetchResult.fetchErr
    else FetchResult.ok (some "T") none

/-- Alternative outcome for the first URL (used for the frame property). -/
def demoG : String → FetchResult :=
  fun w => if w = "http://a.com/x" then FetchResult.ok none none
    else FetchResult.ok (some "T") none

/-- Claim C6 witness: the theorem applied to the concrete two-URL document. -/
theorem annotation_fetch_isolated_witness :
    (∃ v, fetchAndMerge demoUrls demoF "http:/a.com/x" = some v ∧
      (v = MetaVal.null ∨ v = MetaVal.obj none none)) ∧
    fetchAndMerge demoUrls demoF "http:/b.com/y" =
      fetchAndMerge demoUrls demoG "http:/b.com/y" :=
  ⟨(annotation_fetch_isolated demoUrls demoF demoG "http://a.com/x"
      (by decide) (Or.inl (by decide)) (by decide)
      (fun w hw => by unfold demoF demoG; rw [if_neg hw, if_neg hw])).1
      "http:/a.com/x" (by decide),
    (annotation_fetch_isolated demoUrls demoF demoG "http://a.com/x"
      (by decide) (Or.inl (by decide)) (by decide)
      (fun w hw => by unfold demoF demoG; rw [if_neg hw, if_neg hw])).2
      "http:/b.com/y" (by decide)⟩

/-! ### Rust `str::lines` -/

/-- Split a character list at every newline (one part per segment; the
result is never empty). -/
def splitNl : List Char → List (List Char)
  | [] => [[]]
  | c :: rest =>
    if c = '\n' then [] :: splitNl rest
    else
      match splitNl rest with
      | [] => [[c]]
      | l :: ls => (c :: l) :: ls

/-- Strip one trailing carriage return (Rust's `lines` treats `\r\n` as one
line ending). -/
def stripCr (l : List Char) : List Char :=
  if l.getLast? = some '\r' then l.dropLast else l

/-- Embeds `str::lines`: split on `'\n'`, drop the final empty segment
produced by a trailing newline, strip one `'\r'` from each line end. -/
def rustLines (s : List Char) : List (List Char) :=
  if s = [] then []
  else (if s.getLast? = some '\n' then (splitNl s).dropLast else splitNl s).map stripCr

/-! ### Frontmatter parsing (parse_frontmatter, src/generator.rs lines 293-326) -/

/-- A decoded structured-data value as the `serde` decoders deliver it:
either a map (object) with entries of type `α`, or some non-object value. -/
inductive Yaml (α : Type)
  | obj (fields : List (String × α))
  | scalar

/-- The frontmatter block: the lines following an opening `---`, up to but
not including the next line trimming to `---`. -/
def fmBlock (rest : List (List Char)) : List (List Char) :=
  rest.takeWhile (fun l => rustTrim l != "---".data)

/-- The lines strictly after the closing `---` (empty when no closing marker
exists, matching the exhausted iterator in the Rust loop). -/
def bodyLines (rest : List (List Char)) : List (List Char) :=
  (rest.dropWhile (fun l => rustTrim l != "---".data)).drop 1

def parseFmCore (α : Type) (decode : String → Option (Yaml α)) (content : String) :
    List (List Char) → List (String × α) × String
  | [] => ([], content)
  | first :: rest =>
    if rustTrim first = "---".data then
      ((if fmBlock rest ≠ [] then
          match decode (String.mk (List.intercalate ['\n'] (fmBlock rest))) with
          | some (Yaml.obj m) => m
          | _ => []
        else []),
        String.mk (List.intercalate ['\n'] (bodyLines rest)))
    else ([], content)

/-- Embeds `parse_frontmatter` (src/generator.rs), abstracting the
structured-data decoder: if the first line trims to `---`, collect lines up
to the closing `---`, decode them (an empty or failed decode, or a non-map
value, yields the empty map), and join the remaining lines as the body;
otherwise return empty metadata and the input unchanged.  The function is
total — no input or decoder behaviour makes it fail. -/
def parse_frontmatter (α : Type) (decode : String → Option (Yaml α)) (content : String) :
    List (String × α) × String :=
  parseFmCore α decode content (rustLines content.data)

/-- Claim C7: `parse_frontmatter` never fails: when no line trims to an
opening `---` (or the input is empty) it returns an empty metadata map and
the body is the raw input, unchanged; and when the delimited block fails
structured-data decoding it returns an empty metadata map with the body
still the joined lines after the closing `---`. -/
theorem parse_frontmatter_total (α : Type) (decode : String → Option (Yaml α))
    (content : String) :
    ((∀ first rest, rustLines content.data = first :: rest →
        rustTrim first ≠ "---".data) →
      parse_frontmatter α decode content = ([], content)) ∧
    (∀ first rest, rustLines content.data = first :: rest →
      rustTrim first = "---".data →
      decode (String.mk (List.intercalate ['\n'] (fmBlock rest))) = none →
      parse_frontmatter α decode content =
        ([], String.mk (List.intercalate ['\n'] (bodyLines rest)))) := by
  constructor
  · intro h
    unfold parse_frontmatter
    cases hl : rustLines content.data with
    | nil => rfl
    | cons first rest =>
      simp only [parseFmCore]
      rw [if_neg (h first rest hl)]
  · intro first rest hl hfm hdec
    unfold parse_frontmatter
    rw [hl]
    simp only [parseFmCore]
    rw [if_pos hfm]
    have hfmv : (if fmBlock rest ≠ [] then
        (match decode (String.mk (List.intercalate ['\n'] (fmBlock rest))) with
          | some (Yaml.obj m) => m
          | _ => ([] : List (String × α)))
        else []) = [] := by
      split
      · rw [hdec]
      · rfl
    rw [hfmv]

/-- Claim C7 witness: evaluated on an input with no frontmatter marker and
on an input whose frontmatter block fails to decode. -/
theorem parse_frontmatter_total_witness :
    parse_frontmatter Nat (fun _ => none) "hello world" = ([], "hello world") ∧
    parse_frontmatter Nat (fun _ => none) "---\nt: [\n---\nbody" = ([], "body") := by
  constructor
  · exact (parse_frontmatter_total Nat (fun _ => none) "hello world").1 (by
      intro first rest h
      rw [show rustLines ("hello world" : String).data = ["hello world".data] from by decide] at h
      injection h with h1 h2
      subst h1
      decide)
  · have h2 := (parse_frontmatter_total Nat (fun _ => none) "---\nt: [\n---\nbody").2
      "---".data ["t: [".data, "---".data, "body".data] (by decide) (by decide) rfl
    rw [h2]
    decide

/-! ### The autolinker (autolink_markdown / autolink_text /
split_trailing_punctuation, src/generator.rs lines 181-291) -/

/-- The backtick character (inline-code delimiter). -/
def btick : Char := Char.ofNat 96

/-- A character the URL regex `https?://[^\s<>()]+` may include. -/
def urlOk (c : Char) : Bool :=
  !(c.isWhitespace || c == '<' || c == '>' || c == '(' || c == ')')

/-- Regex-match attempt at the current position: `https?://` followed by a
non-empty greedy run of `urlOk` characters; returns the match length. -/
def matchUrlAt (l : List Char) : Option Nat :=
  if l.take 4 = "http".data then
    if (l.drop 4).take 1 = ['s'] ∧ ((l.drop 4).drop 1).take 3 = "://".data then
      let run := (((l.drop 4).drop 1).drop 3).takeWhile urlOk
      if run = [] then none else some (8 + run.length)
    else if (l.drop 4).take 3 = "://".data then
      let run := ((l.drop 4).drop 3).takeWhile urlOk
      if run = [] then none else some (7 + run.length)
    else none
  else none

/-- The trailing characters `split_trailing_punctuation` peels off. -/
def isTrailPunct (c : Char) : Bool :=
  c == '.' || c == ',' || c == ';' || c == ':' || c == '!' || c == '?' || c == ')' || c == ']'

/-- Embeds `split_trailing_punctuation`: split off the maximal run of
trailing punctuation. -/
def split_trailing_punct (s : List Char) : List Char × List Char :=
  ((s.reverse.dropWhile isTrailPunct).reverse,
    (s.reverse.takeWhile isTrailPunct).reverse)

/-- The `find_iter` loop of `autolink_text`.  `prevRev` is the already
scanned text reversed (for the `](` and `<`/`>` context checks), `pending`
the text accumulated since the last emitted rewrite (`text[last_end..]`),
`res` the output so far, `rest` the unscanned text.  Fuel bounds the
recursion; `rest.length + 1` always suffices because every step consumes at
least one character. -/
def alGo : Nat → List Char → List Char → List Char → List Char → List Char
  | 0, _, pending, res, rest => res ++ pending ++ rest
  | fuel + 1, prevRev, pending, res, rest =>
    match matchUrlAt rest with
    | some n =>
      if prevRev.take 2 = ['(', ']'] ∨
          (prevRev.head? = some '<' ∧ (rest.drop n).head? = some '>') then
        alGo fuel ((rest.take n).reverse ++ prevRev) (pending ++ rest.take n) res
          (rest.drop n)
      else
        alGo fuel ((rest.take n).reverse ++ prevRev) []
          (res ++ pending ++ '[' :: (split_trailing_punct (rest.take n)).1 ++
            ']' :: '(' :: (split_trailing_punct (rest.take n)).1 ++
            ')' :: (split_trailing_punct (rest.take n)).2)
          (rest.drop n)
    | none =>
      match rest with
      | [] => res ++ pending
      | c :: rest2 => alGo fuel (c :: prevRev) (pending ++ [c]) res rest2

/-- Embeds `autolink_text` (rewrite bare http/https URLs into explicit
`[url](url)` links, skipping Markdown link targets and angle-bracketed
URLs, excluding trailing punctuation). -/
def autolink_text (t : List Char) : List Char :=
  alGo (t.length + 1) [] [] [] t

/-- The inline-code-span loop of `autolink_markdown`: text between backticks
passes through unchanged, each segment outside code is autolinked. -/
def piGo : Bool → List Char → List Char → List Char → List Char
  | inCode, processed, buffer, [] =>
    if inCode then processed ++ buffer else processed ++ autolink_text buffer
  | inCode, processed, buffer, c :: rest =>
    if c = btick then
      if inCode then piGo false (processed ++ buffer ++ [btick]) [] rest
      else piGo true (processed ++ autolink_text buffer ++ [btick]) [] rest
    else piGo inCode processed (buffer ++ [c]) rest

/-- Is this line a fence toggle (`trim_start().starts_with("```")`)? -/
def isFenceLine (l : List Char) : Bool :=
  (l.dropWhile Char.isWhitespace).take 3 == [btick, btick, btick]

/-- The per-line loop of `autolink_markdown`, toggling the fenced-code-block
state on fence lines and passing fenced lines through untouched. -/
def autolinkLines : Bool → List (List Char) → List (List Char)
  | _, [] => []
  | inCode, l :: rest =>
    if isFenceLine l then l :: autolinkLines (!inCode) rest
    else if inCode then l :: autolinkLines inCode rest
    else piGo false [] [] l :: autolinkLines inCode rest

/-- Embeds `autolink_markdown`: process line by line, then re-join with
newlines. -/
def autolink_markdown (markdown : String) : String :=
  String.mk (List.intercalate ['\n'] (autolinkLines false (rustLines markdown.data)))

/-- The fenced-code state in force before line `i`, starting from state `s`. -/
def fenceStateAt : Bool → List (List Char) → Nat → Bool
  | s, _, 0 => s
  | s, [], _ + 1 => s
  | s, l :: rest, i + 1 => fenceStateAt (if isFenceLine l then !s else s) rest i

theorem fence_preserved :
    ∀ (ls : List (List Char)) (s : Bool) (i : Nat) (l : List Char),
      ls.get? i = some l → fenceStateAt s ls i = true → isFenceLine l = false →
      (autolinkLines s ls).get? i = some l := by
  intro ls
  induction ls with
  | nil => intro s i l h _ _; simp at h
  | cons x rest ih =>
    intro s i l hget hstate hfence
    cases i with
    | zero =>
      simp only [List.get?_cons_zero, Option.some.injEq] at hget
      subst hget
      have hs : s = true := hstate
      subst hs
      simp [autolinkLines, hfence]
    | succ j =>
      simp only [List.get?_cons_succ] at hget
      by_cases hf : isFenceLine x = true
      · have hstate' : fenceStateAt (!s) rest j = true := by
          have he : fenceStateAt s (x :: rest) (j + 1) =
              fenceStateAt (!s) rest j := by
            simp [fenceStateAt, hf]
          rw [← he]
          exact hstate
        have hres := ih (!s) j l hget hstate' hfence
        simp only [autolinkLines, if_pos hf, List.get?_cons_succ]
        exact hres
      · have hstate' : fenceStateAt s rest j = true := by
          have he : fenceStateAt s (x :: rest) (j + 1) = fenceStateAt s rest j := by
            simp [fenceStateAt, hf]
          rw [← he]
          exact hstate
        have hres := ih s j l hget hstate' hfence
        cases s
        · simp only [autolinkLines, if_neg hf, Bool.false_eq_true, if_neg,
            List.get?_cons_succ]
          exact hres
        · simp only [autolinkLines, if_neg hf, if_pos rfl, List.get?_cons_succ]
          exact hres

/-- Claim C9: autolinking `"see http://a.com/x, thanks"` produces the
explicit link `[http://a.com/x](http://a.com/x)` with the trailing
`, thanks` left outside the link; and every line lying strictly inside a
fenced code block (state `true` before the line, the line itself not a fence
toggle) passes through `autolink_markdown`'s line processing unchanged. -/
theorem autolink_spec :
    autolink_markdown "see http://a.com/x, thanks" =
      "see [http://a.com/x](http://a.com/x), thanks" ∧
    (∀ (md : List Char) (i : Nat) (l : List Char),
      (rustLines md).get? i = some l →
      fenceStateAt false (rustLines md) i = true →
      isFenceLine l = false →
      (autolinkLines false (rustLines md)).get? i = some l) := by
  constructor
  · decide
  · intro md i l hget hstate hfence
    exact fence_preserved (rustLines md) false i l hget hstate hfence

/-- Claim C9 witness: the fenced-line preservation applied to a concrete
three-line document whose middle line is a URL inside a fence. -/
theorem autolink_spec_witness :
    (autolinkLines false (rustLines "```\nhttp://x.com/a\n```".data)).get? 1 =
      some "http://x.com/a".data :=
  autolink_spec.2 "```\nhttp://x.com/a\n```".data 1 "http://x.com/a".data
    (by decide) (by decide) (by decide)

/-! ### The document model and backlink detection
(Post, src/generator.rs lines 15-26; find_backlinks, src/templates.rs lines 1024-1065) -/

/-- The fields of the `Post` struct the claims touch (date, excerpt and
frontmatter play no role in any claim and are omitted). -/
structure Post where
  slug : String
  original_slug : String
  title : String
  content : String
  html_content : String
  first_letter : Option Char
deriving DecidableEq

/-- The `Backlink` struct of src/templates.rs. -/
structure Backlink where
  title : String
  url : String
deriving DecidableEq

/-- Substring containment on character lists (Rust `str::contains` with a
string pattern). -/
def hasSub : List Char → List Char → Bool
  | hay, needle =>
    match hay with
    | [] => needle.isPrefixOf []
    | c :: rest => needle.isPrefixOf (c :: rest) || hasSub rest needle

/-- The 24 substring patterns of `find_backlinks`, built from the canonical
slug and the original slug, in source order. -/
def backlinkPats (slug orig : String) : List String :=
  [ "/" ++ slug ++ "/", "/" ++ slug ++ "\"", "/" ++ slug ++ ".md\"",
    "./" ++ slug ++ "/", "./" ++ slug ++ "\"", "./" ++ slug ++ ".md\"",
    "../" ++ slug ++ "/", "../" ++ slug ++ "\"", "../" ++ slug ++ ".md\"",
    slug ++ "/", slug ++ "\"", slug ++ ".md\"",
    "/" ++ orig ++ "/", "/" ++ orig ++ "\"", "/" ++ orig ++ ".md\"",
    "./" ++ orig ++ "/", "./" ++ orig ++ "\"", "./" ++ orig ++ ".md\"",
    "../" ++ orig ++ "/", "../" ++ orig ++ "\"", "../" ++ orig ++ ".md\"",
    orig ++ "/", orig ++ "\"", orig ++ ".md\"" ]

/-- Embeds `find_backlinks` (src/templates.rs): every post whose slug
differs from the current one and whose rendered HTML contains any pattern
contributes `{ title, url := "../<its slug>/" }`, in post order. -/
def find_backlinks (posts : List Post) (currentSlug currentOrig : String) :
    List Backlink :=
  (posts.filter (fun p => p.slug != currentSlug &&
      (backlinkPats currentSlug currentOrig).any
        (fun pat => hasSub p.html_content.data pat.data))).map
    (fun p => { title := p.title, url := "../" ++ p.slug ++ "/" })

theorem string_data_inj {s t : String} (h : s.data = t.data) : s = t := by
  cases s
  cases t
  exact congrArg String.mk h

theorem hasSub_of_isPrefixOf {hay needle : List Char}
    (h : needle.isPrefixOf hay = true) : hasSub hay needle = true := by
  cases hay with
  | nil => exact h
  | cons c rest => simp [hasSub, h]

theorem hasSub_append (pre n post : List Char) : hasSub (pre ++ n ++ post) n = true := by
  induction pre with
  | nil =>
    simp only [List.nil_append]
    exact hasSub_of_isPrefixOf (List.isPrefixOf_iff_prefix.mpr (List.prefix_append n post))
  | cons c pre' ih =>
    have he : ((c :: pre') ++ n) ++ post = c :: ((pre' ++ n) ++ post) := by
      simp
    rw [he]
    simp only [hasSub]
    rw [ih]
    simp

/-- Demo posts for the C8 counterexample and witness. -/
def postA : Post :=
  { slug := "a-post", original_slug := "a-post", title := "A", content := "",
    html_content := "", first_letter := none }

/-- A distinct document that happens to share the canonical slug `a-post`. -/
def postB : Post :=
  { slug := "a-post", original_slug := "a_post", title := "B", content := "",
    html_content := "<a href=\"../a-post/\">x</a>", first_letter := none }

/-- A document with a different slug linking to `a-post`. -/
def postC : Post :=
  { slug := "b-post", original_slug := "b_post", title := "B", content := "",
    html_content := "<a href=\"../a-post/\">x</a>", first_letter := none }

/-- Claim C8 counterexample: `postB` contains `href="../a-post/"` yet is
excluded from the backlinks of the target with slug `a-post`, because the
exclusion compares slugs and `postB` (a distinct document) shares the slug.
So "any document B whose rendered HTML contains the substring" is not
included. -/
theorem backlink_same_slug_cex :
    hasSub postB.html_content.data "href=\"../a-post/\"".data = true ∧
    find_backlinks [postA, postB] postA.slug postA.original_slug = [] := by
  constructor
  · decide
  · decide

/-- Claim C8 (amended): any document `B` whose slug differs from the
target's slug `a-post` and whose rendered HTML contains
`href="../a-post/"` is included in the target's backlinks over `[A, B]`
(with `B`'s title and the URL `../<B.slug>/`); and no backlink entry ever
points back at the target itself — exclusion is by slug equality, so a
distinct document sharing the target's slug is also excluded. -/
theorem backlinks_detect :
    (∀ A B : Post, A.slug = "a-post" → B.slug ≠ "a-post" →
      (∃ pre post, B.html_content.data = pre ++ "href=\"../a-post/\"".data ++ post) →
      ∃ bl ∈ find_backlinks [A, B] A.slug A.original_slug,
        bl.title = B.title ∧ bl.url = "../" ++ B.slug ++ "/") ∧
    (∀ (posts : List Post) (cur orig : String),
      ∀ bl ∈ find_backlinks posts cur orig, bl.url ≠ "../" ++ cur ++ "/") := by
  constructor
  · intro A B hA hB hex
    rcases hex with ⟨pre, post, hhtml⟩
    refine ⟨{ title := B.title, url := "../" ++ B.slug ++ "/" }, ?_, rfl, rfl⟩
    unfold find_backlinks
    apply List.mem_map.mpr
    refine ⟨B, ?_, rfl⟩
    apply List.mem_filter.mpr
    refine ⟨by simp, ?_⟩
    rw [Bool.and_eq_true]
    constructor
    · rw [hA]
      exact bne_iff_ne.mpr hB
    · apply List.any_eq_true.mpr
      refine ⟨"../" ++ A.slug ++ "/", ?_, ?_⟩
      · unfold backlinkPats
        simp
      · rw [hA]
        have hsplit : ("href=\"../a-post/\"" : String).data =
            "href=\"".data ++ ("../" ++ "a-post" ++ "/" : String).data ++ "\"".data := rfl
        rw [hsplit] at hhtml
        have hre : B.html_content.data =
            (pre ++ "href=\"".data) ++ ("../" ++ "a-post" ++ "/" : String).data ++
              ("\"".data ++ post) := by
          rw [hhtml]
          simp [List.append_assoc]
        rw [hre]
        exact hasSub_append _ _ _
  · intro posts cur orig bl hbl
    unfold find_backlinks at hbl
    rcases List.mem_map.mp hbl with ⟨p, hp, rfl⟩
    rcases List.mem_filter.mp hp with ⟨_, hcond⟩
    have hslug : p.slug ≠ cur := by
      rw [Bool.and_eq_true] at hcond
      exact bne_iff_ne.mp hcond.1
    intro he
    apply hslug
    have hd := congrArg String.data he
    simp only [String.data_append] at hd
    exact string_data_inj (List.append_cancel_left (List.append_cancel_right hd))

/-- Claim C8 witness: `postC` (slug `b-post`) links to the target `a-post`
and is detected; the target itself is not among its own backlinks. -/
theorem backlinks_detect_witness :
    ∃ bl ∈ find_backlinks [postA, postC] postA.slug postA.original_slug,
      bl.title = postC.title ∧ bl.url = "../" ++ postC.slug ++ "/" :=
  backlinks_detect.1 postA postC (by decide) (by decide)
    ⟨"<a ".data, ">x</a>".data, by decide⟩

/-! ### Illustration scheduling (generate_initials, src/generator.rs lines 328-382) -/

/-- The scheduling loop of `generate_initials`: for each post with a first
letter, a generation task is spawned whenever no cache file for that letter
exists.  The cache is only read while scheduling — every write happens later,
after all tasks have been spawned — so the existence predicate is constant
during the loop.  The result lists one entry per spawned generation call, in
post order: the loop iterates over posts, not over distinct letters. -/
def scheduledLetters (posts : List Post) (cacheHas : Char → Bool) : List Char :=
  ((posts.filter (fun p => p.first_letter.isSome)).filterMap
      (fun p => p.first_letter)).filter (fun L => !cacheHas L)

/-- A post whose first paragraph begins with `A`. -/
def postA1 : Post :=
  { slug := "p1", original_slug := "p1", title := "One", content := "",
    html_content := "<p>Alpha</p>", first_letter := some 'A' }

/-- A second, distinct post sharing the first letter `A`. -/
def postA2 : Post :=
  { slug := "p2", original_slug := "p2", title := "Two", content := "",
    html_content := "<p>Autumn</p>", first_letter := some 'A' }

/-- Claim C1 evidence: with an empty cache, two documents sharing first
letter `A` cause `generate_initials` to spawn two generation calls for `A`,
not one — the existence check is made per post before any task has written
its cache file, and no per-run set of scheduled letters exists. -/
theorem duplicate_initial_requests :
    scheduledLetters [postA1, postA2] (fun _ => false) = ['A', 'A'] ∧
    (scheduledLetters [postA1, postA2] (fun _ => false)).count 'A' = 2 := by
  constructor
  · decide
  · decide

/-! ### First-letter excision at render time (render_post, src/templates.rs lines 6-43) -/

/-- Lazy scan for the closing `</p>` on the same line (`.` in the regexes
does not match a newline): accumulate the shortest middle segment. -/
def findCloseP : List Char → List Char → Option (List Char × List Char)
  | acc, '<' :: '/' :: 'p' :: '>' :: rest => some (acc.reverse, rest)
  | _, [] => none
  | _, '\n' :: _ => none
  | acc, c :: rest => findCloseP (c :: acc) rest

/-- Match attempt of `<p>([^<])(.*?)</p>` at the current position: returns
the second capture and the remainder after the match. -/
def tryExciseAt (l : List Char) : Option (List Char × List Char) :=
  if l.take 3 = "<p>".data then
    match l.drop 3 with
    | [] => none
    | c :: rest =>
      if c ≠ '<' then findCloseP [] rest
      else none
  else none

/-- The `Regex::replace` of `render_post`: replace the first (leftmost)
match of `<p>([^<])(.*?)</p>` with `<p>{capture 2}</p>`, dropping the
paragraph's first character. -/
def exciseFirst : List Char → List Char
  | [] => []
  | c :: rest =>
    match tryExciseAt (c :: rest) with
    | some (mid, after) => "<p>".data ++ mid ++ "</p>".data ++ after
    | none => c :: exciseFirst rest

/-- The illustration block `render_post` prepends when the cached image
data for the letter is read successfully (exact source formatting). -/
def illumBlock (data : List Char) (letter : Char) : List Char :=
  "<div class=\"illuminated-initial\">\n                        <img src=\"".data ++
    data ++ "\" alt=\"Illuminated initial ".data ++ [letter] ++
    "\" class=\"initial-image\">\n                    </div>".data

/-- The excision-and-illustration fragment of `render_post`
(src/templates.rs lines 9-43): the first paragraph's first character is
excised whenever the post merely HAS a first letter
(`has_initial = post.first_letter.is_some()`), while the illustration block
is emitted only when the cache file for that letter exists and reads
successfully (`cacheRead`). -/
def render_excision (htmlContent : List Char) (firstLetter : Option Char)
    (cacheRead : Char → Option (List Char)) : List Char × List Char :=
  (if firstLetter.isSome then exciseFirst htmlContent else htmlContent,
    match firstLetter with
    | some L =>
      match cacheRead L with
      | some data => illumBlock data L
      | none => []
    | none => [])

/-- Claim C2 evidence: with the cache empty (for example because the API key
is absent and no illustration was ever generated), a post whose first letter
is `H` still has the `H` excised from its first paragraph while no
illustration block is emitted; with a cached image the same input yields a
non-empty block.  So excision does not coincide with illustration
existence. -/
theorem excise_without_illustration :
    render_excision "<p>Hello world</p>".data (some 'H') (fun _ => none) =
      ("<p>ello world</p>".data, []) ∧
    (render_excision "<p>Hello world</p>".data (some 'H')
        (fun _ => some "IMG".data)).2 ≠ [] := by
  constructor
  · decide
  · decide

/-! ### First-letter extraction (parse_post, src/generator.rs lines 108-120) -/

/-- Match attempt of `<p>(.*?)</p>` at the current position: the raw capture
between the tags. -/
def tryParaAt (l : List Char) : Option (List Char) :=
  if l.take 3 = "<p>".data then
    match findCloseP [] (l.drop 3) with
    | some (mid, _) => some mid
    | none => none
  else none

/-- The first-paragraph capture of `parse_post` (`unwrap_or_default` yields
the empty string when the regex does not match). -/
def firstParagraph : List Char → List Char
  | [] => []
  | c :: rest =>
    match tryParaAt (c :: rest) with
    | some mid => mid
    | none => firstParagraph rest

/-- The first-letter computation of `parse_post`: the first alphabetic
character of the first paragraph's raw HTML, uppercased. -/
def first_letter_of (htmlContent : List Char) : Option Char :=
  ((firstParagraph htmlContent).find? Char.isAlpha).map Char.toUpper

/-- Claim C10: the first letter is computed from the raw HTML captured
between the first `<p>` and `</p>`, markup included: for a paragraph that
begins with an inline element the captured text is `<em>hello</em>` and the
letter is the tag's `E`, not the visible text's `H`; a plain paragraph
yields `H`. -/
theorem first_letter_from_markup :
    firstParagraph "<p><em>hello</em></p>".data = "<em>hello</em>".data ∧
    first_letter_of "<p><em>hello</em></p>".data = some 'E' ∧
    first_letter_of "<p><em>hello</em></p>".data ≠ some 'H' ∧
    first_letter_of "<p>hello</p>".data = some 'H' := by
  refine ⟨by decide, by decide, by decide, by decide⟩
